import Mathlib

/-!
Verification of the pyproxy interception core against its specification.

The development shallowly embeds three parts of the source:

* the structural matcher `SoapMatches` of src/proxy/pipe/recipe/soap.py
  (`object_matches`, `list_matches`, `dict_matches`, `suds_object_matches`),
  as total Lean functions returning `Except PyErr Bool`, where `Except.error`
  models a Python exception escaping the matcher;
* the generator-based evaluation of `Flow.__call__` and the branch bodies of
  src/proxy/pipe/recipe/transform.py, as an interaction tree `Comp` with
  `done` (return), `reject` (`DoesNotAccept`) and `suspend` (`yield`);
* the mutable object graph of `Flow` (builder methods, the `parameters`
  setter and the `__get__` owner binding), as a heap of nodes indexed by
  allocation order, with the recursive mutating operations written as
  fuel-indexed state-passing functions (`none` models non-termination of the
  corresponding unbounded Python recursion, which the source does not guard).

Modelling choices, recorded once here:

* Python values are restricted to the universe `Value` (None, int, str,
  list, dict with string keys, suds objects).  Strings are modelled as
  atomic scalars: the matcher recipes never apply sequence or record
  patterns to str actuals, so Python's str sequence protocol is outside the
  modelled fragment and `pyLen`/`pyIndexNat` report a TypeError there.
* `suds.sudsobject.Object` behaves per the suds library: it supports
  `len` (number of fields), int subscription (field value by position),
  string subscription (`getattr`, AttributeError when absent), and
  `getattr(obj, key, default)` (never raising).  `isinstance` subclass
  checks are modelled as class-name equality.
* Python `==` on the modelled universe is structural equality `pyEq`
  (dict equality is modelled field-list-wise; a dict or list reaching the
  equality fallback of `object_matches` cannot arise from a Python pattern,
  since the dispatch sends list and dict patterns elsewhere first).
* Python object identity is modelled by heap indices in the `Store` model.
-/

set_option maxHeartbeats 1600000

namespace PyProxy

/-- Exceptions that can escape the structural matcher: `KeyError` from
`dict[missing]`, `TypeError` from `len`/subscription on an unsized value,
`AttributeError` from suds string subscription of a missing field. -/
inductive PyErr where
  | keyError
  | typeError
  | attributeError
deriving DecidableEq

/-- The universe of Python values the matcher is applied to. -/
inductive Value where
  | none
  | vint (n : Int)
  | vstr (s : String)
  | vlist (l : List Value)
  | vdict (entries : List (String × Value))
  | vobj (cls : String) (fields : List (String × Value))

/-- Patterns, following the dispatch of `SoapMatches.object_matches`:
Python lists, dicts, suds objects, hamcrest matchers, callables, and plain
values compared by equality.  Matchers and callables are opaque boolean
predicates on the actual value. -/
inductive Pattern where
  | plist (ps : List Pattern)
  | pdict (entries : List (String × Pattern))
  | pobj (cls : String) (fields : List (String × Pattern))
  | pmatcher (m : Value → Bool)
  | pcall (f : Value → Bool)
  | plit (v : Value)

mutual

/-- Python `==` restricted to the modelled value universe. -/
def pyEq : Value → Value → Bool
  | .none, .none => true
  | .vint a, .vint b => a == b
  | .vstr a, .vstr b => a == b
  | .vlist a, .vlist b => pyEqList a b
  | .vdict a, .vdict b => pyEqFields a b
  | .vobj c a, .vobj d b => c == d && pyEqFields a b
  | _, _ => false

def pyEqList : List Value → List Value → Bool
  | [], [] => true
  | a :: as, b :: bs => pyEq a b && pyEqList as bs
  | _, _ => false

def pyEqFields : List (String × Value) → List (String × Value) → Bool
  | [], [] => true
  | (k1, a) :: as, (k2, b) :: bs => k1 == k2 && pyEq a b && pyEqFields as bs
  | _, _ => false

end

/-- Python `v is None`. -/
def Value.isNone : Value → Bool
  | .none => true
  | _ => false

/-- First-match association-list lookup (Python dict/attribute lookup). -/
def lookupField {α : Type} : List (String × α) → String → Option α
  | [], _ => Option.none
  | (k, x) :: rest, key => if k = key then Option.some x else lookupField rest key

/-- Length of the sized values (list, dict, suds object); 0 elsewhere. -/
def natLen : Value → Nat
  | .vlist l => l.length
  | .vdict d => d.length
  | .vobj _ fs => fs.length
  | _ => 0

/-- Python `len(v)`: defined for lists, dicts and suds objects,
`TypeError` otherwise (in particular `len(None)` raises). -/
def pyLen (v : Value) : Except PyErr Nat :=
  match v with
  | .vlist _ => .ok (natLen v)
  | .vdict _ => .ok (natLen v)
  | .vobj _ _ => .ok (natLen v)
  | _ => .error .typeError

/-- Python `v[i]` for an int index: list positional access, suds positional
field access; a string-keyed dict raises KeyError, everything else
TypeError. -/
def pyIndexNat (v : Value) (i : Nat) : Except PyErr Value :=
  match v with
  | .vlist l =>
    match l[i]? with
    | Option.some x => .ok x
    | Option.none => .error .typeError
  | .vdict _ => .error .keyError
  | .vobj _ fs =>
    match fs[i]? with
    | Option.some kx => .ok kx.2
    | Option.none => .error .attributeError
  | _ => .error .typeError

/-- Python `v[k]` for a string key: dict lookup (KeyError when absent), suds
`__getitem__` which is `getattr` (AttributeError when absent), TypeError
elsewhere. -/
def pyGetItemStr (v : Value) (k : String) : Except PyErr Value :=
  match v with
  | .vdict d =>
    match lookupField d k with
    | Option.some x => .ok x
    | Option.none => .error .keyError
  | .vobj _ fs =>
    match lookupField fs k with
    | Option.some x => .ok x
    | Option.none => .error .attributeError
  | _ => .error .typeError

/-- Python `getattr(v, k, None)`: never raises, returns None when the field
is absent or the value has no attributes. -/
def pyGetattr (v : Value) (k : String) : Value :=
  match v with
  | .vobj _ fs => (lookupField fs k).getD Value.none
  | _ => Value.none

/-- Python `isinstance(v, list)`. -/
def Value.isList : Value → Bool
  | .vlist _ => true
  | _ => false

/-- The first two lines of `list_matches`: in loose mode a `None` actual is
replaced by the empty tuple before any length check. -/
def convNil (v : Value) (strict : Bool) : Value :=
  if v.isNone ∧ ¬ strict then Value.vlist [] else v

theorem value_sizeOf_pos (v : Value) : 1 ≤ sizeOf v := by
  cases v <;> simp_arith

theorem list_sizeOf_pos {α : Type} [SizeOf α] (l : List α) : 1 ≤ sizeOf l := by
  cases l <;> simp_arith

theorem getElem?_sizeOf {α : Type} [SizeOf α] :
    ∀ (l : List α) (i : Nat) (x : α), l[i]? = Option.some x → sizeOf x + 2 ≤ sizeOf l := by
  intro l
  induction l with
  | nil => intro i x h; simp at h
  | cons a t ih =>
    intro i x h
    cases i with
    | zero =>
      simp at h
      subst h
      have := list_sizeOf_pos t
      simp_arith
      omega
    | succ n =>
      simp at h
      have := ih n x h
      simp_arith
      omega

theorem lookupField_sizeOf {α : Type} [SizeOf α] :
    ∀ (l : List (String × α)) (k : String) (x : α),
      lookupField l k = Option.some x → sizeOf x + 3 ≤ sizeOf l := by
  intro l
  induction l with
  | nil => intro k x h; simp [lookupField] at h
  | cons a t ih =>
    intro k x h
    obtain ⟨k2, y⟩ := a
    simp only [lookupField] at h
    by_cases hk : k2 = k
    · simp [hk] at h
      subst h
      have := list_sizeOf_pos t
      simp_arith
      omega
    · simp [hk] at h
      have := ih k x h
      simp_arith
      omega

theorem pyIndexNat_sizeOf {v : Value} {i : Nat} {x : Value}
    (h : pyIndexNat v i = .ok x) : sizeOf x + 2 ≤ sizeOf v := by
  cases v <;> simp [pyIndexNat] at h
  · rename_i l
    rcases hg : l[i]? with _ | y <;> rw [hg] at h <;> simp at h
    subst h
    have := getElem?_sizeOf l i y hg
    simp_arith
    omega
  · rename_i cls fs
    rcases hg : fs[i]? with _ | kx <;> rw [hg] at h <;> simp at h
    subst h
    have := getElem?_sizeOf fs i kx hg
    obtain ⟨k, y⟩ := kx
    simp_arith at this ⊢
    omega

theorem pyGetItemStr_sizeOf {v : Value} {k : String} {x : Value}
    (h : pyGetItemStr v k = .ok x) : sizeOf x + 4 ≤ sizeOf v := by
  cases v <;> simp [pyGetItemStr] at h
  · rename_i d
    rcases hg : lookupField d k with _ | y <;> rw [hg] at h <;> simp at h
    subst h
    have := lookupField_sizeOf d k y hg
    simp_arith
    omega
  · rename_i cls fs
    rcases hg : lookupField fs k with _ | y <;> rw [hg] at h <;> simp at h
    subst h
    have := lookupField_sizeOf fs k y hg
    simp_arith
    omega

theorem pyGetattr_sizeOf (v : Value) (k : String) :
    sizeOf (pyGetattr v k) ≤ sizeOf v := by
  cases v <;> simp [pyGetattr, value_sizeOf_pos]
  rename_i cls fs
  rcases hg : lookupField fs k with _ | y <;> simp [Option.getD]
  · simp_arith
  · have := lookupField_sizeOf fs k y hg
    simp_arith
    omega

theorem isNone_eq {v : Value} (h : v.isNone = true) : v = Value.none := by
  cases v <;> simp [Value.isNone] at h <;> rfl

theorem convNil_sizeOf (v : Value) (strict : Bool) :
    sizeOf (convNil v strict) ≤ sizeOf v + 1 := by
  unfold convNil
  split
  · rename_i h
    rw [isNone_eq h.1]
    simp_arith
  · omega

theorem convNil_isList (v : Value) (strict : Bool) (h : v.isList = true) :
    convNil v strict = v := by
  cases v <;> simp [Value.isList] at h <;> simp [convNil, Value.isNone]

/-- The `isinstance(item, suds Object) and not isinstance(item, pattern
class)` guard at the top of `suds_object_matches` (subclassing modelled as
class-name equality). -/
def sudsClassMismatch (cls : String) : Value → Bool
  | .vobj cls2 _ => cls2 ≠ cls
  | _ => false

/-- The `if value is None and not strict: continue` guard of the suds field
loop. -/
def skipNoneField (fp : Pattern) (strict : Bool) : Bool :=
  match fp, strict with
  | .plit Value.none, false => true
  | _, _ => false

mutual

/-- `SoapMatches.object_matches(pattern, item, strict)`: the Python elif
chain dispatches on the pattern type, except that its second branch — a
non-list pattern against a list actual in loose mode, wrapped into the
one-element sequence pattern `(pattern,)` — fires before all remaining
dispatch arms; here that branch is replicated inside each non-list arm. -/
def object_matches (p : Pattern) (v : Value) (strict : Bool) : Except PyErr Bool :=
  match p with
  | .plist pl => list_matches pl v strict
  | .pdict pd =>
    if v.isList ∧ ¬ strict then list_matches [Pattern.pdict pd] v strict
    else dict_matches pd v strict
  | .pobj cls fields =>
    if v.isList ∧ ¬ strict then list_matches [Pattern.pobj cls fields] v strict
    else suds_object_matches cls fields v strict
  | .pmatcher m =>
    if v.isList ∧ ¬ strict then list_matches [Pattern.pmatcher m] v strict
    else .ok (m v)
  | .pcall f =>
    if v.isList ∧ ¬ strict then list_matches [Pattern.pcall f] v strict
    else .ok (f v)
  | .plit pv =>
    if v.isList ∧ ¬ strict then list_matches [Pattern.plit pv] v strict
    else .ok (pyEq pv v)
termination_by (2 * sizeOf v + sizeOf p + 4, 0)
decreasing_by
  all_goals simp_wf
  all_goals apply Prod.Lex.left
  all_goals
    first
    | (rw [convNil_isList v strict (by simp_all)]
       omega)
    | (have h1 := convNil_sizeOf v strict
       omega)
    | omega

/-- `SoapMatches.list_matches(pattern, item, strict)`: loose-mode None
conversion, the length checks (note `len(item)` is evaluated even for a
`None` actual in strict mode, hence the TypeError there), then the cursor
loop `lmAux`. -/
def list_matches (pl : List Pattern) (v : Value) (strict : Bool) : Except PyErr Bool :=
  match pyLen (convNil v strict) with
  | .error e => .error e
  | .ok n =>
    if pl.length > n ∨ (strict ∧ pl.length ≠ n) then .ok false
    else lmAux pl (convNil v strict) 0 strict
termination_by (2 * sizeOf (convNil v strict) + sizeOf pl + 1, 0)
decreasing_by
  all_goals simp_wf
  all_goals apply Prod.Lex.left
  omega

/-- The `for pattern_value in pattern` loop of `list_matches`, carrying the
persistent cursor `item_index = i`.  When a pattern element matches at
position `j` the loop breaks without advancing the cursor, so the next
pattern element is tried from position `j` again. -/
def lmAux (pl : List Pattern) (item : Value) (i : Nat) (strict : Bool) : Except PyErr Bool :=
  match pl with
  | [] => .ok true
  | p :: ps =>
    match scanFrom p item i strict with
    | .error e => .error e
    | .ok Option.none => .ok false
    | .ok (Option.some j) => lmAux ps item j strict
termination_by (2 * sizeOf item + sizeOf pl, natLen item - i)
decreasing_by
  all_goals simp_wf
  all_goals apply Prod.Lex.left
  all_goals
    first
    | omega
    | (have h2 := list_sizeOf_pos ps
       omega)

/-- The `while item_index < len(item)` loop of `list_matches`: scan forward
from position `i` for the first actual element matching `p`; `none` when
the actual is exhausted (the `else: return False` of the for loop). -/
def scanFrom (p : Pattern) (item : Value) (i : Nat) (strict : Bool) : Except PyErr (Option Nat) :=
  if h : i < natLen item then
    match hx : pyIndexNat item i with
    | .error e => .error e
    | .ok x =>
      match object_matches p x strict with
      | .error e => .error e
      | .ok true => .ok (Option.some i)
      | .ok false => scanFrom p item (i + 1) strict
  else .ok Option.none
termination_by (2 * sizeOf item + sizeOf p + 1, natLen item - i)
decreasing_by
  all_goals simp_wf
  · apply Prod.Lex.left
    have h1 := pyIndexNat_sizeOf hx
    omega
  · apply Prod.Lex.right
    omega

/-- `SoapMatches.dict_matches(pattern, item, strict)`: length checks then
the field loop `dmAux`. -/
def dict_matches (pd : List (String × Pattern)) (v : Value) (strict : Bool) : Except PyErr Bool :=
  match pyLen v with
  | .error e => .error e
  | .ok n =>
    if pd.length > n ∨ (strict ∧ pd.length ≠ n) then .ok false
    else dmAux pd v strict
termination_by (2 * sizeOf v + sizeOf pd + 1, 0)
decreasing_by
  all_goals simp_wf
  all_goals apply Prod.Lex.left
  omega

/-- The `for key, value in pattern.items()` loop of `dict_matches`: the
actual is subscripted with `item[key]` (which raises on a missing key)
before the recursive match. -/
def dmAux (pd : List (String × Pattern)) (v : Value) (strict : Bool) : Except PyErr Bool :=
  match pd with
  | [] => .ok true
  | (k, pv) :: rest =>
    match hx : pyGetItemStr v k with
    | .error e => .error e
    | .ok x =>
      match object_matches pv x strict with
      | .error e => .error e
      | .ok false => .ok false
      | .ok true => dmAux rest v strict
termination_by (2 * sizeOf v + sizeOf pd, 0)
decreasing_by
  all_goals simp_wf
  all_goals apply Prod.Lex.left
  all_goals
    first
    | omega
    | (have h1 := pyGetItemStr_sizeOf hx
       have h2 := list_sizeOf_pos rest
       omega)

/-- `SoapMatches.suds_object_matches(pattern, item, strict)`: the class
compatibility check when the actual is itself a suds object (see
`sudsClassMismatch`), then the field loop. -/
def suds_object_matches (cls : String) (fields : List (String × Pattern)) (v : Value)
    (strict : Bool) : Except PyErr Bool :=
  if sudsClassMismatch cls v then .ok false
  else sudsFields fields v strict
termination_by (2 * sizeOf v + sizeOf fields + 3, 0)
decreasing_by
  all_goals simp_wf
  all_goals apply Prod.Lex.left
  all_goals omega

/-- The `for key, value in suds.sudsobject.items(pattern)` loop: a `None`
pattern field is skipped in loose mode (see `skipNoneField`); otherwise the
actual field is read with `getattr(item, key, None)` (never raising) and
matched recursively. -/
def sudsFields (fields : List (String × Pattern)) (v : Value) (strict : Bool) :
    Except PyErr Bool :=
  match fields with
  | [] => .ok true
  | (k, fp) :: rest =>
    if skipNoneField fp strict then sudsFields rest v strict
    else
      match object_matches fp (pyGetattr v k) strict with
      | .error e => .error e
      | .ok false => .ok false
      | .ok true => sudsFields rest v strict
termination_by (2 * sizeOf v + sizeOf fields + 2, 0)
decreasing_by
  all_goals simp_wf
  all_goals apply Prod.Lex.left
  all_goals
    first
    | omega
    | (have h1 := pyGetattr_sizeOf v k
       have h2 := list_sizeOf_pos rest
       have h3 := value_sizeOf_pos v
       omega)

end


/-! Single-step unfolding lemmas for the recursive matcher loops (the raw
unfolding equations recurse under unreduced match arms, so guarded forms
are derived once here and used everywhere below). -/

theorem scanFrom_stop {p : Pattern} {item : Value} {i : Nat} {strict : Bool}
    (h : ¬ i < natLen item) : scanFrom p item i strict = .ok Option.none := by
  rw [scanFrom]
  simp [h]

theorem scanFrom_idx_err {p : Pattern} {item : Value} {i : Nat} {strict : Bool} {e : PyErr}
    (h : i < natLen item) (hx : pyIndexNat item i = .error e) :
    scanFrom p item i strict = .error e := by
  rw [scanFrom]
  rw [dif_pos h]
  split <;> simp_all

theorem scanFrom_match_err {p : Pattern} {item x : Value} {i : Nat} {strict : Bool} {e : PyErr}
    (h : i < natLen item) (hx : pyIndexNat item i = .ok x)
    (hm : object_matches p x strict = .error e) :
    scanFrom p item i strict = .error e := by
  rw [scanFrom]
  rw [dif_pos h]
  split <;> rename_i heq <;> rw [heq] at hx <;> simp_all

theorem scanFrom_found {p : Pattern} {item x : Value} {i : Nat} {strict : Bool}
    (h : i < natLen item) (hx : pyIndexNat item i = .ok x)
    (hm : object_matches p x strict = .ok true) :
    scanFrom p item i strict = .ok (Option.some i) := by
  rw [scanFrom]
  rw [dif_pos h]
  split <;> rename_i heq <;> rw [heq] at hx <;> simp_all

theorem scanFrom_next {p : Pattern} {item x : Value} {i : Nat} {strict : Bool}
    (h : i < natLen item) (hx : pyIndexNat item i = .ok x)
    (hm : object_matches p x strict = .ok false) :
    scanFrom p item i strict = scanFrom p item (i + 1) strict := by
  rw [scanFrom]
  rw [dif_pos h]
  split <;> rename_i heq <;> rw [heq] at hx <;> simp_all

theorem lmAux_nil {item : Value} {i : Nat} {strict : Bool} :
    lmAux [] item i strict = .ok true := by
  rw [lmAux]

theorem lmAux_cons_err {p : Pattern} {ps : List Pattern} {item : Value} {i : Nat}
    {strict : Bool} {e : PyErr} (hs : scanFrom p item i strict = .error e) :
    lmAux (p :: ps) item i strict = .error e := by
  rw [lmAux]
  simp [hs]

theorem lmAux_cons_none {p : Pattern} {ps : List Pattern} {item : Value} {i : Nat}
    {strict : Bool} (hs : scanFrom p item i strict = .ok Option.none) :
    lmAux (p :: ps) item i strict = .ok false := by
  rw [lmAux]
  simp [hs]

theorem lmAux_cons_some {p : Pattern} {ps : List Pattern} {item : Value} {i j : Nat}
    {strict : Bool} (hs : scanFrom p item i strict = .ok (Option.some j)) :
    lmAux (p :: ps) item i strict = lmAux ps item j strict := by
  rw [lmAux]
  simp [hs]

theorem dmAux_nil {v : Value} {strict : Bool} : dmAux [] v strict = .ok true := by
  rw [dmAux]

theorem dmAux_cons_item_err {k : String} {pv : Pattern} {rest : List (String × Pattern)}
    {v : Value} {strict : Bool} {e : PyErr} (hk : pyGetItemStr v k = .error e) :
    dmAux ((k, pv) :: rest) v strict = .error e := by
  rw [dmAux]
  split <;> simp_all

theorem dmAux_cons_match_err {k : String} {pv : Pattern} {rest : List (String × Pattern)}
    {v x : Value} {strict : Bool} {e : PyErr} (hk : pyGetItemStr v k = .ok x)
    (hm : object_matches pv x strict = .error e) :
    dmAux ((k, pv) :: rest) v strict = .error e := by
  rw [dmAux]
  split <;> rename_i heq <;> rw [heq] at hk <;> simp_all

theorem dmAux_cons_false {k : String} {pv : Pattern} {rest : List (String × Pattern)}
    {v x : Value} {strict : Bool} (hk : pyGetItemStr v k = .ok x)
    (hm : object_matches pv x strict = .ok false) :
    dmAux ((k, pv) :: rest) v strict = .ok false := by
  rw [dmAux]
  split <;> rename_i heq <;> rw [heq] at hk <;> simp_all

theorem dmAux_cons_true {k : String} {pv : Pattern} {rest : List (String × Pattern)}
    {v x : Value} {strict : Bool} (hk : pyGetItemStr v k = .ok x)
    (hm : object_matches pv x strict = .ok true) :
    dmAux ((k, pv) :: rest) v strict = dmAux rest v strict := by
  rw [dmAux]
  split <;> rename_i heq <;> rw [heq] at hk <;> simp_all

theorem sudsFields_nil {v : Value} {strict : Bool} : sudsFields [] v strict = .ok true := by
  rw [sudsFields]

theorem sudsFields_skip {k : String} {fp : Pattern} {rest : List (String × Pattern)}
    {v : Value} {strict : Bool} (hf : skipNoneField fp strict = true) :
    sudsFields ((k, fp) :: rest) v strict = sudsFields rest v strict := by
  rw [sudsFields]
  simp [hf]

theorem sudsFields_err {k : String} {fp : Pattern} {rest : List (String × Pattern)}
    {v : Value} {strict : Bool} {e : PyErr} (hf : skipNoneField fp strict = false)
    (hm : object_matches fp (pyGetattr v k) strict = .error e) :
    sudsFields ((k, fp) :: rest) v strict = .error e := by
  rw [sudsFields]
  simp [hf, hm]

theorem sudsFields_false {k : String} {fp : Pattern} {rest : List (String × Pattern)}
    {v : Value} {strict : Bool} (hf : skipNoneField fp strict = false)
    (hm : object_matches fp (pyGetattr v k) strict = .ok false) :
    sudsFields ((k, fp) :: rest) v strict = .ok false := by
  rw [sudsFields]
  simp [hf, hm]

theorem sudsFields_true {k : String} {fp : Pattern} {rest : List (String × Pattern)}
    {v : Value} {strict : Bool} (hf : skipNoneField fp strict = false)
    (hm : object_matches fp (pyGetattr v k) strict = .ok true) :
    sudsFields ((k, fp) :: rest) v strict = sudsFields rest v strict := by
  rw [sudsFields]
  simp [hf, hm]



/-- The scanning cursor never moves backward: a hit reported by the while
loop lies at or after the position the scan started from. -/
theorem scanFrom_le {p : Pattern} {item : Value} {strict : Bool} :
    ∀ (n i j : Nat), natLen item - i ≤ n →
      scanFrom p item i strict = .ok (Option.some j) → i ≤ j := by
  intro n
  induction n with
  | zero =>
    intro i j hn h
    have hstop : ¬ i < natLen item := by omega
    rw [scanFrom_stop hstop] at h
    simp at h
  | succ n ih =>
    intro i j hn h
    by_cases hc : i < natLen item
    · rw [scanFrom] at h
      rw [dif_pos hc] at h
      split at h
      · simp at h
      · rename_i x heq
        split at h
        · simp at h
        · simp at h
          omega
        · have := ih (i + 1) j (by omega) h
          omega
    · rw [scanFrom_stop hc] at h
      simp at h

/-- C2: the claim says the structural matcher never raises and degrades a
missing record field to a non-match.  On the dict path the source subscripts
the actual with `item[key]`, so a pattern field absent from the actual dict
raises `KeyError` instead of producing a non-match; the suds-object path, by
contrast, does degrade gracefully via `getattr(item, key, None)` (second
conjunct).  This theorem evaluates the code at the failing input. -/
theorem C2_record_missing_field_faults :
    (object_matches (.pdict [("a", .plit (.vint 1))]) (.vdict [("b", .vint 2)]) false
      = .error .keyError)
    ∧ (object_matches (.pobj "T" [("a", .plit (.vint 1))]) (.vobj "T" []) false
      = .ok false) := by
  constructor
  · have hk : pyGetItemStr (.vdict [("b", .vint 2)]) "a" = .error .keyError := by
      simp [pyGetItemStr, lookupField]
    rw [object_matches]
    rw [dict_matches]
    simp [Value.isList, pyLen, natLen, dmAux_cons_item_err hk]
  · have hm : object_matches (.plit (.vint 1)) (pyGetattr (.vobj "T" []) "a") false
        = .ok false := by
      rw [object_matches]
      simp [Value.isList, pyGetattr, lookupField, pyEq]
    rw [object_matches]
    rw [suds_object_matches]
    simp [Value.isList, sudsClassMismatch]
    rw [sudsFields_false (by simp [skipNoneField]) hm]

/-- C3 counterexample: in strict mode a non-empty sequence pattern against a
nil actual does not return a non-match; `len(None)` raises TypeError. -/
theorem C3_strict_nil_counterexample :
    object_matches (.plist [.plit (.vint 1)]) Value.none true = .error .typeError := by
  rw [object_matches]
  rw [list_matches]
  simp [convNil, Value.isNone, pyLen]

/-- C3 (amended): with a nil actual sequence, loose mode treats the actual
as the empty sequence — the empty pattern matches and any non-empty pattern
is a non-match — while strict mode faults with TypeError (from `len(None)`)
for every pattern, instead of returning a non-match. -/
theorem C3_nil_sequence_behaviour :
    (object_matches (.plist []) Value.none false = .ok true)
    ∧ (∀ (p : Pattern) (ps : List Pattern),
        object_matches (.plist (p :: ps)) Value.none false = .ok false)
    ∧ (∀ (pl : List Pattern),
        object_matches (.plist pl) Value.none true = .error .typeError) := by
  refine ⟨?_, ?_, ?_⟩
  · rw [object_matches]
    rw [list_matches]
    simp [convNil, Value.isNone, pyLen, natLen, lmAux_nil]
  · intro p ps
    rw [object_matches]
    rw [list_matches]
    simp [convNil, Value.isNone, pyLen, natLen]
  · intro pl
    rw [object_matches]
    rw [list_matches]
    simp [convNil, Value.isNone, pyLen]

/-- C4: sequence matching is ordered-subsequence containment with a
forward-only cursor: loose pattern [1,3] matches actual [1,2,3,4]; loose
pattern [3,1] does not match actual [1,2,3]; and in general, when a pattern
head is satisfied the hit position is at or after the current cursor and the
remaining pattern elements are matched from exactly that position onward. -/
theorem C4_sequence_ordered_subsequence :
    (object_matches (.plist [.plit (.vint 1), .plit (.vint 3)])
      (.vlist [.vint 1, .vint 2, .vint 3, .vint 4]) false = .ok true)
    ∧ (object_matches (.plist [.plit (.vint 3), .plit (.vint 1)])
      (.vlist [.vint 1, .vint 2, .vint 3]) false = .ok false)
    ∧ (∀ (p : Pattern) (ps : List Pattern) (item : Value) (i : Nat) (strict : Bool),
        lmAux (p :: ps) item i strict = .ok true →
        ∃ j, i ≤ j ∧ scanFrom p item i strict = .ok (Option.some j)
          ∧ lmAux ps item j strict = .ok true) := by
  refine ⟨?_, ?_, ?_⟩
  · have e11 : object_matches (.plit (.vint 1)) (.vint 1) false = .ok true := by
      rw [object_matches]
      simp [Value.isList, pyEq]
    have e31 : object_matches (.plit (.vint 3)) (.vint 1) false = .ok false := by
      rw [object_matches]
      simp [Value.isList, pyEq]
    have e32 : object_matches (.plit (.vint 3)) (.vint 2) false = .ok false := by
      rw [object_matches]
      simp [Value.isList, pyEq]
    have e33 : object_matches (.plit (.vint 3)) (.vint 3) false = .ok true := by
      rw [object_matches]
      simp [Value.isList, pyEq]
    have s1 : scanFrom (.plit (.vint 1)) (.vlist [.vint 1, .vint 2, .vint 3, .vint 4]) 0 false
        = .ok (Option.some 0) :=
      scanFrom_found (by simp [natLen]) (by simp [pyIndexNat]) e11
    have s2 : scanFrom (.plit (.vint 3)) (.vlist [.vint 1, .vint 2, .vint 3, .vint 4]) 0 false
        = .ok (Option.some 2) := by
      rw [scanFrom_next (by simp [natLen]) (by simp [pyIndexNat]) e31]
      rw [scanFrom_next (by simp [natLen]) (by simp [pyIndexNat]) e32]
      exact scanFrom_found (by simp [natLen]) (by simp [pyIndexNat]) e33
    rw [object_matches]
    rw [list_matches]
    rw [convNil_isList _ _ (by rfl)]
    rw [lmAux_cons_some s1, lmAux_cons_some s2, lmAux_nil]
    simp [pyLen, natLen]
  · have e31 : object_matches (.plit (.vint 3)) (.vint 1) false = .ok false := by
      rw [object_matches]
      simp [Value.isList, pyEq]
    have e32 : object_matches (.plit (.vint 3)) (.vint 2) false = .ok false := by
      rw [object_matches]
      simp [Value.isList, pyEq]
    have e33 : object_matches (.plit (.vint 3)) (.vint 3) false = .ok true := by
      rw [object_matches]
      simp [Value.isList, pyEq]
    have e13 : object_matches (.plit (.vint 1)) (.vint 3) false = .ok false := by
      rw [object_matches]
      simp [Value.isList, pyEq]
    have s1 : scanFrom (.plit (.vint 3)) (.vlist [.vint 1, .vint 2, .vint 3]) 0 false
        = .ok (Option.some 2) := by
      rw [scanFrom_next (by simp [natLen]) (by simp [pyIndexNat]) e31]
      rw [scanFrom_next (by simp [natLen]) (by simp [pyIndexNat]) e32]
      exact scanFrom_found (by simp [natLen]) (by simp [pyIndexNat]) e33
    have s2 : scanFrom (.plit (.vint 1)) (.vlist [.vint 1, .vint 2, .vint 3]) 2 false
        = .ok Option.none := by
      rw [scanFrom_next (by simp [natLen]) (by simp [pyIndexNat]) e13]
      exact scanFrom_stop (by simp [natLen])
    rw [object_matches]
    rw [list_matches]
    rw [convNil_isList _ _ (by rfl)]
    rw [lmAux_cons_some s1, lmAux_cons_none s2]
    simp [pyLen, natLen]
  · intro p ps item i strict h
    rw [lmAux] at h
    split at h
    · simp at h
    · simp at h
    · rename_i j hs
      exact ⟨j, scanFrom_le (natLen item - i) i j (by omega) hs, hs, h⟩

/-- C4 witness: the general cursor decomposition applied at a concrete
input. -/
theorem C4_sequence_ordered_subsequence_witness :
    ∃ j, 0 ≤ j ∧ scanFrom (.plit (.vint 5)) (.vlist [.vint 5]) 0 false = .ok (Option.some j)
      ∧ lmAux [] (.vlist [.vint 5]) j false = .ok true := by
  have e : object_matches (.plit (.vint 5)) (.vint 5) false = .ok true := by
    rw [object_matches]
    simp [Value.isList, pyEq]
  have h : lmAux [.plit (.vint 5)] (.vlist [.vint 5]) 0 false = .ok true := by
    rw [lmAux_cons_some (scanFrom_found (by simp [natLen]) (by simp [pyIndexNat]) e)]
    exact lmAux_nil
  exact C4_sequence_ordered_subsequence.2.2 _ _ _ _ _ h

/-- C10: the cursor is not advanced past an actual element once a pattern
element has matched it — pattern [2,2] matches actual [2,3] in both modes —
and in general, when the pattern head matches the element at the cursor, the
remaining pattern is matched starting from that same position. -/
theorem C10_cursor_reuse :
    (object_matches (.plist [.plit (.vint 2), .plit (.vint 2)])
      (.vlist [.vint 2, .vint 3]) false = .ok true)
    ∧ (object_matches (.plist [.plit (.vint 2), .plit (.vint 2)])
      (.vlist [.vint 2, .vint 3]) true = .ok true)
    ∧ (∀ (p : Pattern) (ps : List Pattern) (item x : Value) (i : Nat) (strict : Bool),
        i < natLen item → pyIndexNat item i = .ok x →
        object_matches p x strict = .ok true →
        lmAux (p :: ps) item i strict = lmAux ps item i strict) := by
  refine ⟨?_, ?_, ?_⟩
  · have e : object_matches (.plit (.vint 2)) (.vint 2) false = .ok true := by
      rw [object_matches]
      simp [Value.isList, pyEq]
    have s1 : scanFrom (.plit (.vint 2)) (.vlist [.vint 2, .vint 3]) 0 false
        = .ok (Option.some 0) :=
      scanFrom_found (by simp [natLen]) (by simp [pyIndexNat]) e
    rw [object_matches]
    rw [list_matches]
    rw [convNil_isList _ _ (by rfl)]
    rw [lmAux_cons_some s1, lmAux_cons_some s1, lmAux_nil]
    simp [pyLen, natLen]
  · have e : object_matches (.plit (.vint 2)) (.vint 2) true = .ok true := by
      rw [object_matches]
      simp [Value.isList, pyEq]
    have s1 : scanFrom (.plit (.vint 2)) (.vlist [.vint 2, .vint 3]) 0 true
        = .ok (Option.some 0) :=
      scanFrom_found (by simp [natLen]) (by simp [pyIndexNat]) e
    rw [object_matches]
    rw [list_matches]
    rw [convNil_isList _ _ (by rfl)]
    rw [lmAux_cons_some s1, lmAux_cons_some s1, lmAux_nil]
    simp [pyLen, natLen]
  · intro p ps item x i strict h hx hm
    exact lmAux_cons_some (scanFrom_found h hx hm)

/-- C10 witness: the no-advance law applied at a concrete input. -/
theorem C10_cursor_reuse_witness :
    lmAux [.plit (.vint 5), .plit (.vint 6)] (.vlist [.vint 5]) 0 false
      = lmAux [.plit (.vint 6)] (.vlist [.vint 5]) 0 false := by
  exact C10_cursor_reuse.2.2 (.plit (.vint 5)) [.plit (.vint 6)] (.vlist [.vint 5])
    (.vint 5) 0 false (by simp [natLen]) (by simp [pyIndexNat])
    (by rw [object_matches]; simp [Value.isList, pyEq])


/-! ### Generator-based flow evaluation

`Flow.__call__` and the branch bodies are Python generators driven by an
external loop: `yield (endpoint, request)` suspends, `send(value)` resumes,
`return r` finishes, and raising `DoesNotAccept` rejects.  The computation
is embedded as an interaction tree over a destination type `E`, an outgoing
message type `Q` and a resume/result type `R` (requests and responses are
opaque to the dispatch logic). -/

/-- A resumable computation: finished with a result, rejected
(`DoesNotAccept`), or suspended on an emitted `(dest, msg)` pair with a
continuation awaiting the driver's answer. -/
inductive Comp (E Q R : Type) where
  | done (result : R)
  | reject
  | suspend (dest : E) (msg : Q) (k : R → Comp E Q R)

/-- The `try: return (yield from branch(request)) except DoesNotAccept: pass`
body of the dispatch loop of `Flow.__call__`: run the branch to completion,
forwarding its suspensions; a result ends the loop, a rejection — even one
raised after suspensions — falls through to the rest of the loop. -/
def tryBranch {E Q R : Type} : Comp E Q R → Comp E Q R → Comp E Q R
  | .done r, _ => .done r
  | .reject, rest => rest
  | .suspend e q k, rest => .suspend e q (fun r => tryBranch (k r) rest)

/-- `Flow.__call__(request)`: fold the dispatch loop over the registered
branches; exhausting all branches raises `DoesNotAccept` to the caller. -/
def flowCall {E Q R : Type} (branches : List (Q → Comp E Q R)) (request : Q) : Comp E Q R :=
  match branches with
  | [] => Comp.reject
  | b :: bs => tryBranch (b request) (flowCall bs request)

/-- The `_responder` generator appended by `Flow.then_pass_through(endpoint)`:
`response = yield endpoint, request; return response` (the `if not request:
request = self` line only undoes Python method binding and is absorbed by
passing the request directly). -/
def then_pass_through_branch {E Q R : Type} (endpoint : E) (request : Q) : Comp E Q R :=
  Comp.suspend endpoint request Comp.done

/-- Run a computation under a driver that answers every suspension,
collecting the emitted suspension events in order together with the final
outcome (`none` models the rejection escaping to the driver). -/
def runTrace {E Q R : Type} (driver : E → Q → R) : Comp E Q R → List (E × Q) × Option R
  | .done r => ([], Option.some r)
  | .reject => ([], Option.none)
  | .suspend e q k =>
    ((e, q) :: (runTrace driver (k (driver e q))).1, (runTrace driver (k (driver e q))).2)

/-- The specification's evaluation contract, stated in its own words: try
each branch strictly in registration order, return the first non-rejecting
result (after the suspension events of all attempted branches), reject when
every branch rejects.  Compared against `flowCall` below. -/
def flowFirstMatch {E Q R : Type} (driver : E → Q → R) (branches : List (Q → Comp E Q R))
    (request : Q) : List (E × Q) × Option R :=
  match branches with
  | [] => ([], Option.none)
  | b :: bs =>
    match runTrace driver (b request) with
    | (t, Option.some r) => (t, Option.some r)
    | (t, Option.none) =>
      (t ++ (flowFirstMatch driver bs request).1, (flowFirstMatch driver bs request).2)

theorem runTrace_tryBranch {E Q R : Type} (d : E → Q → R) (c rest : Comp E Q R) :
    runTrace d (tryBranch c rest) =
      match runTrace d c with
      | (t, Option.some r) => (t, Option.some r)
      | (t, Option.none) => (t ++ (runTrace d rest).1, (runTrace d rest).2) := by
  induction c with
  | done r => simp [tryBranch, runTrace]
  | reject => simp [tryBranch, runTrace]
  | suspend e q k ih =>
    have ihd := ih (d e q)
    rcases h : runTrace d (k (d e q)) with ⟨t0, r0⟩
    rw [h] at ihd
    cases r0 <;> simp [tryBranch, runTrace, ihd, h]

theorem flowFirstMatch_none_iff {E Q R : Type} (d : E → Q → R)
    (bs : List (Q → Comp E Q R)) (q : Q) :
    (flowFirstMatch d bs q).2 = Option.none ↔
      ∀ b ∈ bs, (runTrace d (b q)).2 = Option.none := by
  induction bs with
  | nil => simp [flowFirstMatch]
  | cons b bs ih =>
    rcases h : runTrace d (b q) with ⟨t0, r0⟩
    cases r0 <;> simp [flowFirstMatch, h, ih]

/-- C1: evaluating a flow node tries its branches strictly in registration
order and stops at the first branch that does not reject: under every
driver, the suspension trace and outcome of `Flow.__call__` coincide with
the specification's first-match contract, and the node rejects if and only
if every branch rejects. -/
theorem C1_first_match_dispatch {E Q R : Type} (d : E → Q → R)
    (bs : List (Q → Comp E Q R)) (q : Q) :
    runTrace d (flowCall bs q) = flowFirstMatch d bs q
    ∧ ((runTrace d (flowCall bs q)).2 = Option.none ↔
        ∀ b ∈ bs, (runTrace d (b q)).2 = Option.none) := by
  have h1 : runTrace d (flowCall bs q) = flowFirstMatch d bs q := by
    induction bs with
    | nil => simp [flowCall, flowFirstMatch, runTrace]
    | cons b bs ih =>
      rw [flowCall, runTrace_tryBranch, ih]
      rcases h : runTrace d (b q) with ⟨t0, r0⟩
      cases r0 <;> simp [flowFirstMatch, h]
  exact ⟨h1, by rw [h1]; exact flowFirstMatch_none_iff d bs q⟩

/-- C1 witness: the dispatch law at a concrete two-branch flow where the
first branch rejects and the second responds. -/
theorem C1_first_match_dispatch_witness :
    (runTrace (fun (_ : Nat) (q : Nat) => q)
        (flowCall [fun (_ : Nat) => Comp.reject, fun (q : Nat) => Comp.done (q + 1)] 7)
      = flowFirstMatch (fun _ q => q)
          [fun _ => Comp.reject, fun q => Comp.done (q + 1)] 7)
    ∧ ((runTrace (fun (_ : Nat) (q : Nat) => q)
          (flowCall [fun (_ : Nat) => Comp.reject, fun (q : Nat) => Comp.done (q + 1)] 7)).2
        = Option.none ↔
        ∀ b ∈ [fun (_ : Nat) => Comp.reject, fun (q : Nat) => Comp.done (q + 1)],
          (runTrace (fun (_ : Nat) (q : Nat) => q) (b 7)).2 = Option.none) :=
  C1_first_match_dispatch (fun _ q => q)
    [fun _ => Comp.reject, fun q => Comp.done (q + 1)] 7

/-- C5: a `then_pass_through(endpoint)` branch issues exactly one
suspension, tagged with the endpoint and carrying the request it was invoked
with, and returns, unchanged, exactly the value the driver resumes with. -/
theorem C5_pass_through_single_suspension {E Q R : Type} (d : E → Q → R) (e : E) (q : Q) :
    runTrace d (then_pass_through_branch (R := R) e q) = ([(e, q)], Option.some (d e q)) := by
  simp [then_pass_through_branch, runTrace]


/-! ### The mutable flow object graph

`Flow` objects form a mutable graph: each node owns an ordered list of
branches, where a branch is either another `Flow` (sub-flow, guarded flow,
transforming flow) or a plain responder function appended by `then_respond`
or `then_pass_through`.  The graph is modelled as a heap (`Store`) of nodes
addressed by allocation index; guards, transforms and responder functions
are opaque tags (they are shared leaf behaviour objects and play no role in
the structural claims).  The recursive mutating operations — the
`parameters` property setter and the `__get__` owner binding — are written
as fuel-indexed functions, every recursive call consuming one unit;
`Option.none` models the unbounded recursion of the Python original (which
nothing in the source guards against) running out of the allotted depth,
and every theorem below quantifies over the fuel. -/

/-- What kind of `Flow` subclass a node is: `Flow`, `GuardedFlow` (opaque
guard tag) or `TransformingFlow` (opaque transform tag). -/
inductive HKind where
  | plain
  | guarded (g : Nat)
  | transforming (t : Nat)
deriving DecidableEq

/-- One entry of `Flow.__branches`: a sub-flow reference (an object with a
`parameters` attribute) or a responder function (no such attribute). -/
inductive HBranch where
  | flowRef (target : Nat)
  | leaf (tag : Nat)
deriving DecidableEq

/-- A `Flow` object: its class, its `__branches` list and its
`__parameters` slot (`none` is Python `None`; parameter sets themselves are
opaque). -/
structure HNode where
  kind : HKind
  branches : List HBranch
  params : Option Nat
deriving DecidableEq

/-- The heap of flow objects, addressed by allocation index. -/
abbrev Store := List HNode

/-- `self.__branches.append(b)` on node `i`. -/
def append_branch (s : Store) (i : Nat) (b : HBranch) : Store :=
  match s[i]? with
  | Option.some nd => s.set i { nd with branches := nd.branches ++ [b] }
  | Option.none => s

mutual

/-- The `parameters` property setter of `Flow`: store the new value in
`self.__parameters`, then re-assign `branch.parameters` on every branch that
has a `parameters` attribute (the sub-flows, not the responder leaves),
depth-first in branch order. -/
def set_parameters : Nat → Store → Nat → Option Nat → Option Store
  | 0, _, _, _ => Option.none
  | fuel + 1, s, i, p =>
    match s[i]? with
    | Option.none => Option.none
    | Option.some nd =>
      set_parameters_branches fuel (s.set i { nd with params := p }) nd.branches p

/-- The `for branch in self.__branches` loop of the `parameters` setter. -/
def set_parameters_branches : Nat → Store → List HBranch → Option Nat → Option Store
  | 0, _, _, _ => Option.none
  | _ + 1, s, [], _ => Option.some s
  | fuel + 1, s, .leaf _ :: bs, p => set_parameters_branches fuel s bs p
  | fuel + 1, s, .flowRef j :: bs, p =>
    match set_parameters fuel s j p with
    | Option.none => Option.none
    | Option.some s2 => set_parameters_branches fuel s2 bs p

end

mutual

/-- `Flow.__get__(instance, owner)`, the owner binding: `cache` is the
`"__flow"` slot of the owner instance's `__dict__` — a single slot shared by
every flow definition read through that owner.  A cached clone is returned
as-is, for whatever definition is being read.  Otherwise the definition node
`d` is shallow-copied (`copy.copy`: same kind and parameter reference) with
a fresh empty branch list, the branches are rebound one by one (sub-flows
recursively through `__get__` with the same cache; responder functions
become bound methods sharing the same underlying function, hence the same
tag), and finally the clone is stored in the cache slot and returned. -/
def bind_owner : Nat → Store → Option Nat → Nat → Option (Store × Option Nat × Nat)
  | 0, _, _, _ => Option.none
  | _ + 1, s, Option.some c, _ => Option.some (s, Option.some c, c)
  | fuel + 1, s, Option.none, d =>
    match s[d]? with
    | Option.none => Option.none
    | Option.some nd =>
      match bind_branches fuel (s ++ [⟨nd.kind, [], nd.params⟩]) Option.none
          nd.branches s.length with
      | Option.none => Option.none
      | Option.some (s2, _) => Option.some (s2, Option.some s.length, s.length)

/-- The `for branch in self.__branches` loop of `__get__`, appending the
rebound branches to the clone node `t` and threading the shared cache slot
(each nested `__get__` of a sub-flow overwrites it). -/
def bind_branches : Nat → Store → Option Nat → List HBranch → Nat → Option (Store × Option Nat)
  | 0, _, _, _, _ => Option.none
  | _ + 1, s, c, [], _ => Option.some (s, c)
  | fuel + 1, s, c, .leaf tg :: bs, t => bind_branches fuel (append_branch s t (.leaf tg)) c bs t
  | fuel + 1, s, c, .flowRef j :: bs, t =>
    match bind_owner fuel s c j with
    | Option.none => Option.none
    | Option.some (s1, c1, jc) =>
      bind_branches fuel (append_branch s1 t (.flowRef jc)) c1 bs t

end

/-- `Flow.then_respond(responder)`: wrap the responder into a `_responder`
generator function (an opaque leaf tag), append it, and return `self`. -/
def then_respond (s : Store) (i : Nat) (tag : Nat) : Store × Nat :=
  (append_branch s i (.leaf tag), i)

/-- `Flow.then_pass_through(endpoint)`: append the pass-through `_responder`
generator (an opaque leaf tag) and return `self`. -/
def then_pass_through (s : Store) (i : Nat) (tag : Nat) : Store × Nat :=
  (append_branch s i (.leaf tag), i)

/-- `Flow.then_delegate(flow)`: append the delegated flow as a branch of
`self`, assign `flow.parameters = self.parameters` (the recursive setter),
and return the delegated flow. -/
def then_delegate (fuel : Nat) (s : Store) (i : Nat) (child : Nat) : Option (Store × Nat) :=
  match s[i]? with
  | Option.none => Option.none
  | Option.some nd =>
    match set_parameters fuel (append_branch s i (.flowRef child)) child nd.params with
    | Option.none => Option.none
    | Option.some s2 => Option.some (s2, child)

/-- `Flow.when(matcher)`: allocate a fresh `GuardedFlow(matcher,
self.__parameters)` and delegate to it. -/
def when (fuel : Nat) (s : Store) (i : Nat) (g : Nat) : Option (Store × Nat) :=
  match s[i]? with
  | Option.none => Option.none
  | Option.some nd =>
    then_delegate fuel (s ++ [⟨HKind.guarded g, [], nd.params⟩]) i s.length

/-- `Flow.transform(transform)`: allocate a fresh `TransformingFlow(transform,
self.__parameters)` and delegate to it. -/
def transform (fuel : Nat) (s : Store) (i : Nat) (t : Nat) : Option (Store × Nat) :=
  match s[i]? with
  | Option.none => Option.none
  | Option.some nd =>
    then_delegate fuel (s ++ [⟨HKind.transforming t, [], nd.params⟩]) i s.length

/-- A node `j` is reachable from `i` through `flowRef` branches (the
descendant flow nodes of `i`, including `i` itself). -/
inductive Reach : Store → Nat → Nat → Prop where
  | refl (s : Store) (i : Nat) : Reach s i i
  | step {s : Store} {i j k : Nat} {nd : HNode} :
      s[i]? = Option.some nd → HBranch.flowRef j ∈ nd.branches →
      Reach s j k → Reach s i k


/-- Effect shape of the recursive parameters setter: every heap slot is
either untouched or has exactly its `params` field overwritten with `p`. -/
def ParamWrite (p : Option Nat) (s s2 : Store) : Prop :=
  s2.length = s.length ∧
  ∀ j : Nat, s2[j]? = s[j]? ∨
    ∃ nd, s[j]? = Option.some nd ∧ s2[j]? = Option.some { nd with params := p }

theorem paramWrite_refl (p : Option Nat) (s : Store) : ParamWrite p s s :=
  ⟨rfl, fun _ => Or.inl rfl⟩

theorem paramWrite_trans {p : Option Nat} {s1 s2 s3 : Store}
    (h1 : ParamWrite p s1 s2) (h2 : ParamWrite p s2 s3) : ParamWrite p s1 s3 := by
  refine ⟨h2.1.trans h1.1, fun j => ?_⟩
  rcases h2.2 j with he | ⟨nd, hnd, hnd2⟩
  · rw [he]
    exact h1.2 j
  · rcases h1.2 j with he1 | ⟨nd0, hnd0, hnd0s⟩
    · rw [he1] at hnd
      exact Or.inr ⟨nd, hnd, hnd2⟩
    · rw [hnd0s] at hnd
      have hv : nd = { nd0 with params := p } := (Option.some.inj hnd).symm
      refine Or.inr ⟨nd0, hnd0, ?_⟩
      rw [hnd2, hv]

theorem paramWrite_set {p : Option Nat} {s : Store} {i : Nat} {nd : HNode}
    (h : s[i]? = Option.some nd) :
    ParamWrite p s (s.set i { nd with params := p }) := by
  have hi : i < s.length := (List.getElem?_eq_some.mp h).1
  refine ⟨List.length_set s i _, fun j => ?_⟩
  by_cases hj : i = j
  · subst hj
    exact Or.inr ⟨nd, h, List.getElem?_set_self hi⟩
  · exact Or.inl (List.getElem?_set_ne hj)

theorem paramWrite_keeps {p : Option Nat} {s s2 : Store} (hw : ParamWrite p s s2)
    {j : Nat} {nd : HNode} (h : s[j]? = Option.some nd) (hp : nd.params = p) :
    ∃ nd2, s2[j]? = Option.some nd2 ∧ nd2.params = p := by
  rcases hw.2 j with he | ⟨nd0, hnd0, hnd0s⟩
  · exact ⟨nd, by rw [he, h], hp⟩
  · exact ⟨{ nd0 with params := p }, hnd0s, rfl⟩

/-- Parameter writes do not change the branch structure, so reachability is
preserved. -/
theorem reach_paramWrite {p : Option Nat} {s s2 : Store} (hw : ParamWrite p s s2)
    {i j : Nat} (hr : Reach s i j) : Reach s2 i j := by
  induction hr with
  | refl a => exact Reach.refl s2 a
  | step h1 h2 h3 ih =>
    rename_i a b c nd
    rcases hw.2 a with he | ⟨nd0, hnd0, hnd0s⟩
    · exact Reach.step (by rw [he]; exact h1) h2 ih
    · have hv : nd0 = nd := Option.some.inj (by rw [← hnd0, h1])
      refine Reach.step hnd0s ?_ ih
      show HBranch.flowRef b ∈ ({ nd0 with params := p } : HNode).branches
      rw [show ({ nd0 with params := p } : HNode).branches = nd0.branches from rfl, hv]
      exact h2

theorem reach_paramWrite_rev {p : Option Nat} {s s2 : Store} (hw : ParamWrite p s s2)
    {i j : Nat} (hr : Reach s2 i j) : Reach s i j := by
  induction hr with
  | refl a => exact Reach.refl s a
  | step h1 h2 h3 ih =>
    rename_i a b c nd
    rcases hw.2 a with he | ⟨nd0, hnd0, hnd0s⟩
    · exact Reach.step (by rw [← he]; exact h1) h2 ih
    · have hv : nd = { nd0 with params := p } := Option.some.inj (by rw [← hnd0s, h1])
      refine Reach.step hnd0 ?_ ih
      show HBranch.flowRef b ∈ nd0.branches
      rw [show nd0.branches = ({ nd0 with params := p } : HNode).branches from rfl, ← hv]
      exact h2

theorem sp_shape (fuel : Nat) :
    (∀ (s : Store) (i : Nat) (p : Option Nat) (s2 : Store),
      set_parameters fuel s i p = Option.some s2 → ParamWrite p s s2)
    ∧ (∀ (s : Store) (bs : List HBranch) (p : Option Nat) (s2 : Store),
      set_parameters_branches fuel s bs p = Option.some s2 → ParamWrite p s s2) := by
  induction fuel with
  | zero =>
    constructor
    · intro s i p s2 h
      simp [set_parameters] at h
    · intro s bs p s2 h
      simp [set_parameters_branches] at h
  | succ n ih =>
    constructor
    · intro s i p s2 h
      rw [set_parameters] at h
      rcases hnd : s[i]? with _ | nd <;> rw [hnd] at h
      · simp at h
      · exact paramWrite_trans (paramWrite_set hnd) (ih.2 _ nd.branches p s2 h)
    · intro s bs p s2 h
      match bs with
      | [] =>
        simp only [set_parameters_branches, Option.some.injEq] at h
        rw [← h]
        exact paramWrite_refl p s
      | .leaf tg :: bs =>
        simp only [set_parameters_branches] at h
        exact ih.2 _ bs p s2 h
      | .flowRef u :: bs =>
        simp only [set_parameters_branches] at h
        rcases ha : set_parameters n s u p with _ | sa <;> rw [ha] at h
        · simp at h
        · exact paramWrite_trans (ih.1 _ _ p sa ha) (ih.2 _ bs p s2 h)

theorem sp_covers (fuel : Nat) :
    (∀ (s : Store) (i : Nat) (p : Option Nat) (s2 : Store),
      set_parameters fuel s i p = Option.some s2 →
      ∀ j, Reach s i j → ∃ nd2, s2[j]? = Option.some nd2 ∧ nd2.params = p)
    ∧ (∀ (s : Store) (bs : List HBranch) (p : Option Nat) (s2 : Store),
      set_parameters_branches fuel s bs p = Option.some s2 →
      ∀ t j, HBranch.flowRef t ∈ bs → Reach s t j →
        ∃ nd2, s2[j]? = Option.some nd2 ∧ nd2.params = p) := by
  induction fuel with
  | zero =>
    constructor
    · intro s i p s2 h
      simp [set_parameters] at h
    · intro s bs p s2 h
      simp [set_parameters_branches] at h
  | succ n ih =>
    constructor
    · intro s i p s2 h j hr
      rw [set_parameters] at h
      rcases hnd : s[i]? with _ | nd <;> rw [hnd] at h
      · simp at h
      · have hw1 : ParamWrite p s (s.set i { nd with params := p }) := paramWrite_set hnd
        have hwb : ParamWrite p (s.set i { nd with params := p }) s2 :=
          (sp_shape n).2 _ nd.branches p s2 h
        cases hr with
        | refl =>
          have hi : i < s.length := (List.getElem?_eq_some.mp hnd).1
          exact paramWrite_keeps hwb (List.getElem?_set_self hi) rfl
        | step h1 h2 h3 =>
          rename_i u nd2
          have hv : nd2 = nd := by
            rw [hnd] at h1
            exact (Option.some.inj h1).symm
          exact ih.2 _ nd.branches p s2 h u j (by rw [← hv]; exact h2)
            (reach_paramWrite hw1 h3)
    · intro s bs p s2 h t j hmem hr
      match bs with
      | [] => simp at hmem
      | .leaf tg :: bs =>
        simp only [set_parameters_branches] at h
        rcases List.mem_cons.mp hmem with heq | hmem2
        · simp at heq
        · exact ih.2 _ bs p s2 h t j hmem2 hr
      | .flowRef u :: bs =>
        simp only [set_parameters_branches] at h
        rcases ha : set_parameters n s u p with _ | sa <;> rw [ha] at h
        · simp at h
        · have hwa : ParamWrite p s sa := (sp_shape n).1 s u p sa ha
          have hwb : ParamWrite p sa s2 := (sp_shape n).2 sa bs p s2 h
          rcases List.mem_cons.mp hmem with heq | hmem2
          · have ht : t = u := by injection heq
            subst ht
            rcases ih.1 s t p sa ha j hr with ⟨nd2, hnd2, hp2⟩
            exact paramWrite_keeps hwb hnd2 hp2
          · exact ih.2 sa bs p s2 h t j hmem2 (reach_paramWrite hwa hr)

theorem sp_frame (fuel : Nat) :
    (∀ (s : Store) (i : Nat) (p : Option Nat) (s2 : Store),
      set_parameters fuel s i p = Option.some s2 →
      ∀ j, ¬ Reach s i j → s2[j]? = s[j]?)
    ∧ (∀ (s : Store) (bs : List HBranch) (p : Option Nat) (s2 : Store),
      set_parameters_branches fuel s bs p = Option.some s2 →
      ∀ j, (∀ t, HBranch.flowRef t ∈ bs → ¬ Reach s t j) → s2[j]? = s[j]?) := by
  induction fuel with
  | zero =>
    constructor
    · intro s i p s2 h
      simp [set_parameters] at h
    · intro s bs p s2 h
      simp [set_parameters_branches] at h
  | succ n ih =>
    constructor
    · intro s i p s2 h j hnr
      rw [set_parameters] at h
      rcases hnd : s[i]? with _ | nd <;> rw [hnd] at h
      · simp at h
      · have hji : i ≠ j := fun he => hnr (he ▸ Reach.refl s i)
        have hw1 : ParamWrite p s (s.set i { nd with params := p }) := paramWrite_set hnd
        have hstep : ∀ t, HBranch.flowRef t ∈ nd.branches →
            ¬ Reach (s.set i { nd with params := p }) t j := by
          intro t hm hrt
          exact hnr (Reach.step hnd hm (reach_paramWrite_rev hw1 hrt))
        have hb := ih.2 _ nd.branches p s2 h j hstep
        rw [hb, List.getElem?_set_ne hji]
    · intro s bs p s2 h j hnr
      match bs with
      | [] =>
        simp only [set_parameters_branches, Option.some.injEq] at h
        rw [← h]
      | .leaf tg :: bs =>
        simp only [set_parameters_branches] at h
        exact ih.2 _ bs p s2 h j (fun t hm => hnr t (List.mem_cons_of_mem _ hm))
      | .flowRef u :: bs =>
        simp only [set_parameters_branches] at h
        rcases ha : set_parameters n s u p with _ | sa <;> rw [ha] at h
        · simp at h
        · have hwa : ParamWrite p s sa := (sp_shape n).1 s u p sa ha
          have hA : sa[j]? = s[j]? := ih.1 s u p sa ha j (hnr u (List.mem_cons_self _ _))
          have hB : s2[j]? = sa[j]? := by
            refine ih.2 sa bs p s2 h j ?_
            intro t hm hrt
            exact hnr t (List.mem_cons_of_mem _ hm) (reach_paramWrite_rev hwa hrt)
          rw [hB, hA]

theorem append_branch_length (s : Store) (i : Nat) (b : HBranch) :
    (append_branch s i b).length = s.length := by
  unfold append_branch
  split <;> simp

theorem then_delegate_ret {fuel : Nat} {s : Store} {i child : Nat} {s2 : Store} {r : Nat}
    (h : then_delegate fuel s i child = Option.some (s2, r)) : r = child := by
  unfold then_delegate at h
  split at h
  · simp at h
  · split at h
    · simp at h
    · simp only [Option.some.injEq, Prod.mk.injEq] at h
      exact h.2.symm

/-- C6 counterexample: `then_respond` (and `then_pass_through`) return the
node they were invoked on — the parent — and allocate no child node at all,
so not every public builder operation returns a newly created child. -/
theorem C6_then_respond_returns_parent :
    (then_respond [⟨HKind.plain, [], Option.none⟩] 0 7).2 = 0
    ∧ ((then_respond [⟨HKind.plain, [], Option.none⟩] 0 7).1).length = 1
    ∧ (then_pass_through [⟨HKind.plain, [], Option.none⟩] 0 9).2 = 0 := by
  refine ⟨rfl, rfl, rfl⟩

/-- C6 (amended): `when`, `transform` and `then_delegate` return the child
node (the fresh allocation for `when`/`transform`, the attached sub-flow for
`then_delegate`), while `then_respond` and `then_pass_through` append a leaf
responder branch, create no node, and return the invoked node itself — so
chaining after those two extends breadth, not depth. -/
theorem C6_builder_return_values :
    (∀ (fuel : Nat) (s : Store) (i g : Nat) (s2 : Store) (r : Nat),
      when fuel s i g = Option.some (s2, r) → r = s.length ∧ (i < s.length → r ≠ i))
    ∧ (∀ (fuel : Nat) (s : Store) (i t : Nat) (s2 : Store) (r : Nat),
      transform fuel s i t = Option.some (s2, r) → r = s.length ∧ (i < s.length → r ≠ i))
    ∧ (∀ (fuel : Nat) (s : Store) (i c : Nat) (s2 : Store) (r : Nat),
      then_delegate fuel s i c = Option.some (s2, r) → r = c)
    ∧ (∀ (s : Store) (i tag : Nat),
      (then_respond s i tag).2 = i ∧ ((then_respond s i tag).1).length = s.length)
    ∧ (∀ (s : Store) (i tag : Nat),
      (then_pass_through s i tag).2 = i
        ∧ ((then_pass_through s i tag).1).length = s.length) := by
  refine ⟨?_, ?_, ?_, ?_, ?_⟩
  · intro fuel s i g s2 r h
    unfold when at h
    split at h
    · simp at h
    · have hr := then_delegate_ret h
      subst hr
      exact ⟨rfl, fun hi => by omega⟩
  · intro fuel s i t s2 r h
    unfold transform at h
    split at h
    · simp at h
    · have hr := then_delegate_ret h
      subst hr
      exact ⟨rfl, fun hi => by omega⟩
  · intro fuel s i c s2 r h
    exact then_delegate_ret h
  · intro s i tag
    exact ⟨rfl, append_branch_length s i _⟩
  · intro s i tag
    exact ⟨rfl, append_branch_length s i _⟩

/-- C6 witness: the amended return-value law applied to a concrete one-node
store. -/
theorem C6_builder_return_values_witness :
    1 = ([⟨HKind.plain, [], Option.none⟩] : Store).length
    ∧ (0 < ([⟨HKind.plain, [], Option.none⟩] : Store).length → 1 ≠ 0) :=
  C6_builder_return_values.1 4 [⟨HKind.plain, [], Option.none⟩] 0 5
    [⟨HKind.plain, [HBranch.flowRef 1], Option.none⟩, ⟨HKind.guarded 5, [], Option.none⟩] 1
    (by decide)

/-- C7: setting the parameter set on a flow node propagates it to every
descendant flow node reachable at the moment of assignment, and a child
attached afterwards via `then_delegate` is returned with the parameter value
the parent held at the moment of attachment, propagated through the child's
own descendants. -/
theorem C7_parameter_propagation :
    (∀ (fuel : Nat) (s : Store) (i : Nat) (p : Option Nat) (s2 : Store) (j : Nat),
      set_parameters fuel s i p = Option.some s2 → Reach s i j →
      ∃ nd2, s2[j]? = Option.some nd2 ∧ nd2.params = p)
    ∧ (∀ (fuel : Nat) (s : Store) (i child : Nat) (s2 : Store) (r : Nat) (nd : HNode) (j : Nat),
      then_delegate fuel s i child = Option.some (s2, r) → s[i]? = Option.some nd →
      Reach (append_branch s i (.flowRef child)) child j →
      r = child ∧ ∃ nd2, s2[j]? = Option.some nd2 ∧ nd2.params = nd.params) := by
  constructor
  · intro fuel s i p s2 j h hr
    exact (sp_covers fuel).1 s i p s2 h j hr
  · intro fuel s i child s2 r nd j h hnd hr
    refine ⟨then_delegate_ret h, ?_⟩
    unfold then_delegate at h
    rw [hnd] at h
    simp only [] at h
    split at h
    · simp at h
    · rename_i sb hs
      simp only [Option.some.injEq, Prod.mk.injEq] at h
      rw [← h.1]
      exact (sp_covers fuel).1 _ child nd.params sb hs j hr

/-- C7 witness: propagation applied to a concrete two-node chain. -/
theorem C7_parameter_propagation_witness :
    ∃ nd2, ([⟨HKind.plain, [HBranch.flowRef 1], Option.some 5⟩,
        ⟨HKind.plain, [], Option.some 5⟩] : Store)[1]? = Option.some nd2
      ∧ nd2.params = Option.some 5 :=
  C7_parameter_propagation.1 4
    [⟨HKind.plain, [HBranch.flowRef 1], Option.none⟩, ⟨HKind.plain, [], Option.none⟩]
    0 (Option.some 5)
    [⟨HKind.plain, [HBranch.flowRef 1], Option.some 5⟩, ⟨HKind.plain, [], Option.some 5⟩]
    1 (by decide)
    (@Reach.step [⟨HKind.plain, [HBranch.flowRef 1], Option.none⟩,
        ⟨HKind.plain, [], Option.none⟩] 0 1 1
      ⟨HKind.plain, [HBranch.flowRef 1], Option.none⟩ (by decide) (by simp)
      (Reach.refl _ 1))


theorem append_branch_getElem_ne {s : Store} {t : Nat} {b : HBranch} {j : Nat}
    (h : j ≠ t) : (append_branch s t b)[j]? = s[j]? := by
  unfold append_branch
  split
  · exact List.getElem?_set_ne (fun he => h he.symm)
  · rfl

theorem append_branch_getElem_self {s : Store} {t : Nat} {nd : HNode} {b : HBranch}
    (h : s[t]? = Option.some nd) :
    (append_branch s t b)[t]? = Option.some { nd with branches := nd.branches ++ [b] } := by
  unfold append_branch
  rw [h]
  exact List.getElem?_set_self (List.getElem?_eq_some.mp h).1

/-- All nodes at addresses `≥ lo` have their `flowRef` branches inside
`[lo, s.length)`: the clone region built by an owner binding is closed under
reachability. -/
def RegionClosed (s : Store) (lo : Nat) : Prop :=
  ∀ j nd, lo ≤ j → s[j]? = Option.some nd →
    ∀ t, HBranch.flowRef t ∈ nd.branches → lo ≤ t ∧ t < s.length

theorem regionClosed_trivial (s : Store) : RegionClosed s s.length := by
  intro j nd hj hnd
  have : j < s.length := (List.getElem?_eq_some.mp hnd).1
  omega

theorem regionClosed_append_empty {s : Store} {lo : Nat} (hrc : RegionClosed s lo)
    (k : HKind) (p : Option Nat) : RegionClosed (s ++ [⟨k, [], p⟩]) lo := by
  intro j nd hj hnd t hmem
  rw [List.getElem?_append] at hnd
  split at hnd
  · rcases hrc j nd hj hnd t hmem with ⟨h1, h2⟩
    refine ⟨h1, ?_⟩
    simp
    omega
  · rcases hj2 : j - s.length with _ | m
    · rw [hj2] at hnd
      simp at hnd
      rw [← hnd] at hmem
      simp at hmem
    · rw [hj2] at hnd
      simp at hnd

theorem regionClosed_appendBranch {s : Store} {lo t : Nat} {b : HBranch}
    (hrc : RegionClosed s lo)
    (hb : ∀ u, b = HBranch.flowRef u → lo ≤ u ∧ u < s.length) :
    RegionClosed (append_branch s t b) lo := by
  intro j nd hj hnd u hmem
  rw [append_branch_length]
  by_cases hjt : j = t
  · subst hjt
    rcases hs : s[j]? with _ | nd0
    · unfold append_branch at hnd
      rw [hs] at hnd
      rw [hnd] at hs
      simp at hs
    · rw [append_branch_getElem_self hs] at hnd
      have hv : nd = { nd0 with branches := nd0.branches ++ [b] } :=
        (Option.some.inj hnd).symm
      rw [hv] at hmem
      simp only [List.mem_append] at hmem
      rcases hmem with hm1 | hm2
      · exact hrc j nd0 hj hs u hm1
      · simp at hm2
        exact hb u hm2.symm
  · rw [append_branch_getElem_ne hjt] at hnd
    exact hrc j nd hj hnd u hmem

theorem reach_lower {s : Store} {lo : Nat} (hrc : RegionClosed s lo) {i j : Nat}
    (hr : Reach s i j) : lo ≤ i → lo ≤ j := by
  induction hr with
  | refl a => exact fun h => h
  | step h1 h2 h3 ih =>
    rename_i a b c nd
    intro ha
    exact ih (hrc a nd ha h1 b h2).1

theorem reach_bounded {s : Store} {lo hi : Nat}
    (hcl : ∀ a nd, lo ≤ a → a < hi → s[a]? = Option.some nd →
      ∀ u, HBranch.flowRef u ∈ nd.branches → lo ≤ u ∧ u < hi)
    {i j : Nat} (hr : Reach s i j) : lo ≤ i → i < hi → lo ≤ j ∧ j < hi := by
  induction hr with
  | refl a => exact fun h1 h2 => ⟨h1, h2⟩
  | step h1 h2 h3 ih =>
    rename_i a b c nd
    intro ha hb
    rcases hcl a nd ha hb h1 b h2 with ⟨hu1, hu2⟩
    exact ih hu1 hu2

/-- The central invariant of the owner binding: starting from a store of
length at least `lo`, with any cached id inside `[lo, s.length)` and the
region above `lo` closed, a successful `__get__` only grows the store, never
touches pre-existing nodes, keeps the region closed, and returns an id
inside the region — a fresh one when the cache was empty. -/
theorem bind_owner_inv (fuel : Nat) :
    (∀ (s : Store) (c : Option Nat) (d : Nat) (s2 : Store) (c2 : Option Nat) (r lo : Nat),
      bind_owner fuel s c d = Option.some (s2, c2, r) →
      lo ≤ s.length →
      (∀ x, c = Option.some x → lo ≤ x ∧ x < s.length) →
      RegionClosed s lo →
      s.length ≤ s2.length
      ∧ (∀ j, j < s.length → s2[j]? = s[j]?)
      ∧ RegionClosed s2 lo
      ∧ (lo ≤ r ∧ r < s2.length)
      ∧ (c = Option.none → s.length ≤ r)
      ∧ (∀ x, c2 = Option.some x → lo ≤ x ∧ x < s2.length))
    ∧ (∀ (s : Store) (c : Option Nat) (bs : List HBranch) (t : Nat) (s2 : Store)
        (c2 : Option Nat) (lo : Nat),
      bind_branches fuel s c bs t = Option.some (s2, c2) →
      lo ≤ s.length →
      (∀ x, c = Option.some x → lo ≤ x ∧ x < s.length) →
      RegionClosed s lo →
      lo ≤ t → t < s.length →
      s.length ≤ s2.length
      ∧ (∀ j, j < s.length → j ≠ t → s2[j]? = s[j]?)
      ∧ RegionClosed s2 lo
      ∧ (∀ x, c2 = Option.some x → lo ≤ x ∧ x < s2.length)) := by
  induction fuel with
  | zero =>
    constructor
    · intro s c d s2 c2 r lo h
      simp [bind_owner] at h
    · intro s c bs t s2 c2 lo h
      simp [bind_branches] at h
  | succ n ih =>
    constructor
    · intro s c d s2 c2 r lo h hlo hc hrc
      match c with
      | Option.some c0 =>
        simp only [bind_owner, Option.some.injEq, Prod.mk.injEq] at h
        obtain ⟨hs, hc2, hr⟩ := h
        subst hs
        subst hr
        rcases hc c0 rfl with ⟨h1, h2⟩
        refine ⟨le_refl _, fun j _ => rfl, hrc, ⟨h1, h2⟩, by intro hv; simp at hv, ?_⟩
        intro x hx
        rw [← hc2] at hx
        have := Option.some.inj hx
        subst this
        exact ⟨h1, h2⟩
      | Option.none =>
        simp only [bind_owner] at h
        split at h
        · simp at h
        · rename_i nd hnd
          rcases hb : bind_branches n (s ++ [⟨nd.kind, [], nd.params⟩]) Option.none
              nd.branches s.length with _ | pr <;> rw [hb] at h
          · simp at h
          · rcases pr with ⟨s2x, cb⟩
            simp only [Option.some.injEq, Prod.mk.injEq] at h
            obtain ⟨hs2, hc2, hr⟩ := h
            subst hs2
            subst hr
            have hB := ih.2 (s ++ [⟨nd.kind, [], nd.params⟩]) Option.none nd.branches
              s.length s2x cb lo hb
              (by simp; omega)
              (by intro x hx; simp at hx)
              (regionClosed_append_empty hrc nd.kind nd.params)
              hlo
              (by simp)
            obtain ⟨hlen, huntouch, hreg, hcinv⟩ := hB
            have hlen0 : (s ++ [(⟨nd.kind, [], nd.params⟩ : HNode)]).length = s.length + 1 := by
              simp
            refine ⟨by omega, ?_, hreg, ⟨hlo, by omega⟩, fun _ => le_refl _, ?_⟩
            · intro j hj
              have h1 : s2x[j]? = (s ++ [(⟨nd.kind, [], nd.params⟩ : HNode)])[j]? :=
                huntouch j (by omega) (by omega)
              rw [h1, List.getElem?_append]
              simp [hj]
            · intro x hx
              rw [← hc2] at hx
              have := Option.some.inj hx
              subst this
              exact ⟨hlo, by omega⟩
    · intro s c bs t s2 c2 lo h hlo hc hrc hlt hts
      match bs with
      | [] =>
        simp only [bind_branches, Option.some.injEq, Prod.mk.injEq] at h
        obtain ⟨hs, hc2⟩ := h
        subst hs
        refine ⟨le_refl _, fun j _ _ => rfl, hrc, ?_⟩
        intro x hx
        rw [← hc2] at hx
        exact hc x hx
      | .leaf tg :: bs =>
        simp only [bind_branches] at h
        have hB := ih.2 (append_branch s t (.leaf tg)) c bs t s2 c2 lo h
          (by rw [append_branch_length]; exact hlo)
          (by intro x hx; rw [append_branch_length]; exact hc x hx)
          (regionClosed_appendBranch hrc (by intro u hu; simp at hu))
          hlt
          (by rw [append_branch_length]; exact hts)
        obtain ⟨hlen, huntouch, hreg, hcinv⟩ := hB
        rw [append_branch_length] at hlen
        refine ⟨hlen, ?_, hreg, hcinv⟩
        intro j hj hjt
        rw [huntouch j (by rw [append_branch_length]; exact hj) hjt,
          append_branch_getElem_ne hjt]
      | .flowRef u :: bs =>
        simp only [bind_branches] at h
        rcases ha : bind_owner n s c u with _ | pr <;> rw [ha] at h
        · simp at h
        · rcases pr with ⟨s1, c1, jc⟩
          have hA := ih.1 s c u s1 c1 jc lo ha hlo hc hrc
          obtain ⟨hlen1, huntouch1, hreg1, ⟨hjc1, hjc2⟩, _, hcinv1⟩ := hA
          have hreg1x : RegionClosed (append_branch s1 t (.flowRef jc)) lo := by
            refine regionClosed_appendBranch hreg1 ?_
            intro u2 hu
            injection hu with hh
            subst hh
            exact ⟨hjc1, hjc2⟩
          have hB := ih.2 (append_branch s1 t (.flowRef jc)) c1 bs t s2 c2 lo h
            (by rw [append_branch_length]; omega)
            (by intro x hx; rw [append_branch_length]; exact hcinv1 x hx)
            hreg1x
            hlt
            (by rw [append_branch_length]; omega)
          obtain ⟨hlen2, huntouch2, hreg2, hcinv2⟩ := hB
          rw [append_branch_length] at hlen2
          refine ⟨by omega, ?_, hreg2, hcinv2⟩
          intro j hj hjt
          rw [huntouch2 j (by rw [append_branch_length]; omega) hjt,
            append_branch_getElem_ne hjt, huntouch1 j hj]

/-- C8: two distinct owners binding the same shared flow definition receive
distinct clones, and re-assigning the parameters of owner A's clone leaves
owner B's clone and all its descendant flow nodes untouched. -/
theorem C8_owner_clone_isolation (fuelA fuelB fuelP : Nat) (s : Store) (d : Nat)
    (p : Option Nat) (s1 s2 s3 : Store) (cA cB : Option Nat) (rA rB : Nat)
    (hA : bind_owner fuelA s Option.none d = Option.some (s1, cA, rA))
    (hB : bind_owner fuelB s1 Option.none d = Option.some (s2, cB, rB))
    (hP : set_parameters fuelP s2 rA p = Option.some s3) :
    rA ≠ rB ∧ (∀ j, Reach s2 rB j → s3[j]? = s2[j]?) := by
  have hAinv := (bind_owner_inv fuelA).1 s Option.none d s1 cA rA s.length hA
    (le_refl _) (by intro x hx; simp at hx) (regionClosed_trivial s)
  obtain ⟨hlen1, _, hreg1, ⟨hrA1, hrA2⟩, hrAfresh, _⟩ := hAinv
  have hrAfresh2 : s.length ≤ rA := hrAfresh rfl
  have hBinv := (bind_owner_inv fuelB).1 s1 Option.none d s2 cB rB s1.length hB
    (le_refl _) (by intro x hx; simp at hx) (regionClosed_trivial s1)
  obtain ⟨hlen2, huntouchB, hregB, ⟨hrB1, hrB2⟩, hrBfresh, _⟩ := hBinv
  have hrBfresh2 : s1.length ≤ rB := hrBfresh rfl
  constructor
  · omega
  · intro j hrj
    have hjlow : s1.length ≤ j := reach_lower hregB hrj hrBfresh2
    have hnotA : ¬ Reach s2 rA j := by
      intro hra
      have hbound : ∀ a nd, s.length ≤ a → a < s1.length → s2[a]? = Option.some nd →
          ∀ u2, HBranch.flowRef u2 ∈ nd.branches → s.length ≤ u2 ∧ u2 < s1.length := by
        intro a nd ha1 ha2 hand u2 hmem
        rw [huntouchB a ha2] at hand
        exact hreg1 a nd ha1 hand u2 hmem
      have := reach_bounded hbound hra hrAfresh2 hrA2
      omega
    exact (sp_frame fuelP).1 s2 rA p s3 hP j hnotA

/-- C8 witness: the isolation law at a concrete one-branch definition bound
by two owners. -/
theorem C8_owner_clone_isolation_witness :
    (1 : Nat) ≠ 2
    ∧ (∀ j, Reach [⟨HKind.plain, [HBranch.leaf 0], Option.none⟩,
          ⟨HKind.plain, [HBranch.leaf 0], Option.none⟩,
          ⟨HKind.plain, [HBranch.leaf 0], Option.none⟩] 2 j →
        ([⟨HKind.plain, [HBranch.leaf 0], Option.none⟩,
          ⟨HKind.plain, [HBranch.leaf 0], Option.some 9⟩,
          ⟨HKind.plain, [HBranch.leaf 0], Option.none⟩] : Store)[j]?
          = ([⟨HKind.plain, [HBranch.leaf 0], Option.none⟩,
            ⟨HKind.plain, [HBranch.leaf 0], Option.none⟩,
            ⟨HKind.plain, [HBranch.leaf 0], Option.none⟩] : Store)[j]?) :=
  C8_owner_clone_isolation 3 3 3
    [⟨HKind.plain, [HBranch.leaf 0], Option.none⟩] 0 (Option.some 9)
    [⟨HKind.plain, [HBranch.leaf 0], Option.none⟩,
      ⟨HKind.plain, [HBranch.leaf 0], Option.none⟩]
    [⟨HKind.plain, [HBranch.leaf 0], Option.none⟩,
      ⟨HKind.plain, [HBranch.leaf 0], Option.none⟩,
      ⟨HKind.plain, [HBranch.leaf 0], Option.none⟩]
    [⟨HKind.plain, [HBranch.leaf 0], Option.none⟩,
      ⟨HKind.plain, [HBranch.leaf 0], Option.some 9⟩,
      ⟨HKind.plain, [HBranch.leaf 0], Option.none⟩]
    (Option.some 1) (Option.some 2) 1 2
    (by decide) (by decide) (by decide)

/-- C9 counterexample: with two shared flow definitions (nodes 0 and 1,
distinguishable by their parameter slots), an owner's first access to
definition 0 caches its clone (node 2); the same owner's subsequent first
access to definition 1 returns that cached node 2 — the clone of definition
0, carrying definition 0's parameters — and allocates nothing, instead of
returning a clone of the definition actually accessed. -/
theorem C9_definition_cache_collision :
    bind_owner 2 [⟨HKind.plain, [], Option.some 10⟩, ⟨HKind.plain, [], Option.some 20⟩]
        Option.none 0
      = Option.some ([⟨HKind.plain, [], Option.some 10⟩, ⟨HKind.plain, [], Option.some 20⟩,
          ⟨HKind.plain, [], Option.some 10⟩], Option.some 2, 2)
    ∧ bind_owner 2 [⟨HKind.plain, [], Option.some 10⟩, ⟨HKind.plain, [], Option.some 20⟩,
          ⟨HKind.plain, [], Option.some 10⟩] (Option.some 2) 1
      = Option.some ([⟨HKind.plain, [], Option.some 10⟩, ⟨HKind.plain, [], Option.some 20⟩,
          ⟨HKind.plain, [], Option.some 10⟩], Option.some 2, 2)
    ∧ ([⟨HKind.plain, [], Option.some 10⟩, ⟨HKind.plain, [], Option.some 20⟩,
          ⟨HKind.plain, [], Option.some 10⟩] : Store)[2]?
        = Option.some ⟨HKind.plain, [], Option.some 10⟩ := by
  refine ⟨by decide, by decide, by decide⟩

/-- C9 (amended): the owner binding keeps a single per-owner cache slot
shared by all flow definitions: the first access by an owner (empty slot)
allocates the clone at the next free address and caches exactly that
address, and every subsequent access by the same owner — to the same or any
other definition — returns the cached clone with the store unchanged. -/
theorem C9_owner_cache_behaviour :
    (∀ (fuel : Nat) (s : Store) (d : Nat) (s2 : Store) (c2 : Option Nat) (r : Nat),
      bind_owner (fuel + 1) s Option.none d = Option.some (s2, c2, r) →
      r = s.length ∧ c2 = Option.some s.length)
    ∧ (∀ (fuel : Nat) (s : Store) (c d : Nat),
      bind_owner (fuel + 1) s (Option.some c) d = Option.some (s, Option.some c, c)) := by
  constructor
  · intro fuel s d s2 c2 r h
    simp only [bind_owner] at h
    split at h
    · simp at h
    · split at h
      · simp at h
      · simp only [Option.some.injEq, Prod.mk.injEq] at h
        exact ⟨h.2.2.symm, h.2.1.symm⟩
  · intro fuel s c d
    rfl

/-- C9 witness: the amended cache law applied at a concrete first access. -/
theorem C9_owner_cache_behaviour_witness :
    (2 : Nat) = ([⟨HKind.plain, [], Option.some 10⟩,
        ⟨HKind.plain, [], Option.some 20⟩] : Store).length
    ∧ (Option.some 2 : Option Nat) = Option.some ([⟨HKind.plain, [], Option.some 10⟩,
        ⟨HKind.plain, [], Option.some 20⟩] : Store).length :=
  C9_owner_cache_behaviour.1 1
    [⟨HKind.plain, [], Option.some 10⟩, ⟨HKind.plain, [], Option.some 20⟩] 0
    [⟨HKind.plain, [], Option.some 10⟩, ⟨HKind.plain, [], Option.some 20⟩,
      ⟨HKind.plain, [], Option.some 10⟩]
    (Option.some 2) 2 (by decide)

end PyProxy
